import Mathlib

/-!
Shallow embedding of the legacy-file plugin (`src/main.ts`).

Strings are modelled as lists of characters (`Str`); the vault is a flat
record of existing folders and files.  All definitions are computable and
follow the TypeScript source; comments point at the source lines they
translate.
-/

namespace LegacyPlugin

/-- JavaScript strings are modelled as lists of characters. -/
abbrev Str := List Char

/-- Char-list of a Lean string literal. -/
def lit (s : String) : Str := s.data

/-- Sort order setting, `'asc' | 'desc'` (main.ts line 6). -/
inductive SortOrder
  | asc
  | desc
deriving DecidableEq, Repr

/-- Plugin settings (main.ts lines 4-7). -/
structure Settings where
  legacyFolder : Str
  sortOrder : SortOrder
deriving DecidableEq, Repr

/-- Default settings (main.ts lines 10-13). -/
def DEFAULT_SETTINGS : Settings := ⟨lit "legacy", .asc⟩

/-- A file in the vault: parent folder path, basename (file name without
extension, as `TFile.basename` in the source), extension, and content. -/
structure VFile where
  folder : Str
  basename : Str
  ext : Str
  content : Str
deriving DecidableEq, Repr

/-- The vault: the existing folders and files.  `adapter.exists` on a folder
path is membership in `folders`; `vault.getFiles()` returns `files`. -/
structure Vault where
  folders : List Str
  files : List VFile
deriving DecidableEq, Repr

/-- The active document handle: its basename and its current content
(`workspace.getActiveFile()` plus `vault.read(activeFile)`). -/
structure ActiveDoc where
  basename : Str
  content : Str
deriving DecidableEq, Repr

/-- Host `normalizePath` collapses redundant path separators; none of the
claims depend on that, and every path in play is already canonical, so it is
modelled as the identity. -/
def normalizePath (p : Str) : Str := p

/-- Wall-clock instant as read from the JS `Date` API; `month0` is the
0-based month returned by `getMonth()`. -/
structure DateTime where
  year : Nat
  month0 : Nat
  day : Nat
  hour : Nat
  minute : Nat
  second : Nat
deriving DecidableEq, Repr

/-- Decimal digits of a natural number (the JS `String(n)` conversion),
written with explicit fuel so the recursion is structural; fuel `n + 1`
always suffices. -/
def natDigitsAux : Nat → Nat → Str
  | 0, _ => []
  | fuel + 1, n =>
    if n < 10 then [Nat.digitChar n]
    else natDigitsAux fuel (n / 10) ++ [Nat.digitChar (n % 10)]

/-- Decimal representation of `n`, as JS `String(n)` for a nonnegative
integer. -/
def natDigits (n : Nat) : Str := natDigitsAux (n + 1) n

/-- JS `String(n).padStart(2, '0')` (main.ts lines 70-74). -/
def pad2 (n : Nat) : Str :=
  List.replicate (2 - (natDigits n).length) '0' ++ natDigits n

/-- Source `getTimestamp` (main.ts lines 67-76): local time rendered as
`YYYYMMDDHHmmss`.  The year is not padded; month, day, hour, minute and
second are padded to two digits; `getMonth()` is 0-based so 1 is added. -/
def getTimestamp (now : DateTime) : Str :=
  natDigits now.year ++ pad2 (now.month0 + 1) ++ pad2 now.day ++
    pad2 now.hour ++ pad2 now.minute ++ pad2 now.second

/-- Vault `create` fails when an entry already exists at the target path;
this predicate checks for a file at `folder/name.ext`. -/
def fileExistsAt (v : Vault) (folder name ext : Str) : Bool :=
  v.files.any fun f => decide (f.folder = folder ∧ f.basename = name ∧ f.ext = ext)

/-- Folder creation when missing (main.ts lines 103-105). -/
def ensureFolder (v : Vault) (folder : Str) : Vault :=
  if folder ∈ v.folders then v else { v with folders := v.folders ++ [folder] }

/-- Basename of a fresh snapshot, `{base}_legacy_{timestamp}` (main.ts
line 97; the `.md` extension is appended at creation). -/
def snapshotName (base : Str) (now : DateTime) : Str :=
  base ++ lit "_legacy_" ++ getTimestamp now

/-- Outcome of the snapshot writer, mirroring the notices of main.ts
lines 82, 113 and 116. -/
inductive WriteOutcome
  | noActiveDocument
  | createFailed
  | ok (name : Str)
deriving DecidableEq, Repr

/-- Source `createLegacyFile` (main.ts lines 79-118): read the active file,
ensure the legacy folder exists, create `{base}_legacy_{timestamp}.md` with
the document's content.  The only fallible step after the folder handling is
`vault.create`, which fails when the path is already taken; the catch at
line 114 leaves the vault as it then stands (the folder creation is not
rolled back). -/
def createLegacyFile (v : Vault) (active : Option ActiveDoc) (s : Settings)
    (now : DateTime) : WriteOutcome × Vault :=
  match active with
  | none => (.noActiveDocument, v)
  | some doc =>
    let folder := normalizePath s.legacyFolder
    let v1 := ensureFolder v folder
    if fileExistsAt v1 folder (snapshotName doc.basename now) (lit "md") then
      (.createFailed, v1)
    else
      (.ok (snapshotName doc.basename now),
        { v1 with files := v1.files ++
            [⟨folder, snapshotName doc.basename now, lit "md", doc.content⟩] })

/-- The filter pattern of main.ts line 149: the dynamically built regex
`^{baseName}_legacy_\d{14}$` tested against a file's basename.  The source
does not escape `baseName`; the model reads the base name literally, which
coincides with the source's regex whenever the base name contains no regex
metacharacters (true of every name in the claims). -/
def matchesPattern (base : Str) (name : Str) : Bool :=
  (base ++ lit "_legacy_").isPrefixOf name &&
    (name.drop (base.length + 8)).length == 14 &&
    (name.drop (base.length + 8)).all Char.isDigit

/-- Timestamp extraction of main.ts line 163: the regex match
`/_legacy_(\d{14})$/` on a basename, returning the captured group.  The
regex matches exactly when the name's last 22 characters are `_legacy_`
followed by 14 digits. -/
def extractTimestamp (name : Str) : Option Str :=
  if 22 ≤ name.length ∧
      (lit "_legacy_").isPrefixOf (name.drop (name.length - 22)) = true ∧
      ((name.drop (name.length - 22)).drop 8).all Char.isDigit = true then
    some ((name.drop (name.length - 22)).drop 8)
  else none

/-- Fallback sort key when the extraction regex fails (main.ts line 164). -/
def fallbackTimestamp : Str := lit "00000000000000"

/-- The snapshot filter (main.ts lines 143-153): files whose direct parent
is the legacy folder and whose basename matches the owner's pattern. -/
def legacyMatches (v : Vault) (base folder : Str) : List VFile :=
  v.files.filter fun f =>
    decide (normalizePath f.folder = folder) && matchesPattern base f.basename

/-- Pair each matched file with its extracted timestamp (main.ts
lines 161-166). -/
def withTimestamps (files : List VFile) : List (VFile × Str) :=
  files.map fun f => (f, (extractTimestamp f.basename).getD fallbackTimestamp)

/-- Code-point lexicographic `≤` on strings; `localeCompare` agrees with it
on the fixed-width digit strings compared here. -/
def strLe : Str → Str → Bool
  | [], _ => true
  | _ :: _, [] => false
  | a :: as, b :: bs =>
    if a < b then true
    else if b < a then false
    else strLe as bs

/-- Comparator of main.ts lines 169-175: ascending compares `a` against
`b`, descending compares `b` against `a`. -/
def sortKeyLe (ord : SortOrder) (a b : VFile × Str) : Bool :=
  match ord with
  | .asc => strLe a.2 b.2
  | .desc => strLe b.2 a.2

/-- The engine's comparator sort (main.ts line 169), modelled as insertion
sort on the timestamp key. -/
def sortFiles (ord : SortOrder) (l : List (VFile × Str)) : List (VFile × Str) :=
  List.insertionSort (fun a b => sortKeyLe ord a b = true) l

/-- Matched snapshots of `base`, sorted by the configured order. -/
def sortedMatches (v : Vault) (base folder : Str) (ord : SortOrder) :
    List (VFile × Str) :=
  sortFiles ord (withTimestamps (legacyMatches v base folder))

/-- One appended chunk of the preserved content (main.ts lines 193-194):
a header line carrying the snapshot's storage name, a blank line, then the
snapshot's content. -/
def entryBlock (base ts content : Str) : Str :=
  lit "# " ++ base ++ lit "_legacy_" ++ ts ++ lit "\n\n" ++ content

/-- Separator appended before every entry but the first (main.ts
line 190). -/
def sepBlock : Str := lit "\n___\n\n"

/-- The content-building loop of main.ts lines 181-195, indexed like the
source's `for` loop: a separator before every entry with `i > 0`. -/
def bodyLoop (base : Str) : Nat → List (VFile × Str) → Str → Str
  | _, [], acc => acc
  | i, (f, ts) :: rest, acc =>
    bodyLoop base (i + 1) rest
      ((if 0 < i then acc ++ sepBlock else acc) ++ entryBlock base ts f.content)

/-- The preserved content for a sorted list of matched snapshots. -/
def consolidatedBody (base : Str) (l : List (VFile × Str)) : Str :=
  bodyLoop base 0 l []

/-- Timestamps of the sorted matches, as pushed at main.ts line 186. -/
def timestampsOf (sorted : List (VFile × Str)) : List Str :=
  sorted.map fun p => p.2

/-- Preserved record basename (main.ts lines 197-200):
`{base}_legacy_{startTimestamp}-{endTimestamp}`. -/
def recordName (base startTs endTs : Str) : Str :=
  base ++ lit "_legacy_" ++ startTs ++ lit "-" ++ endTs

/-- The record name the consolidator builds: start is `timestamps[0]`, end
is the last element (main.ts lines 198-199); the defaults are irrelevant
because the list is nonempty on every path that uses them. -/
def consolidateRecordName (v : Vault) (base folder : Str) (ord : SortOrder) : Str :=
  recordName base
    ((timestampsOf (sortedMatches v base folder ord)).headD [])
    ((timestampsOf (sortedMatches v base folder ord)).getLastD [])

/-- The preserved record as a vault file (main.ts lines 200-204). -/
def consolidateRecord (v : Vault) (base folder : Str) (ord : SortOrder) : VFile :=
  ⟨folder, consolidateRecordName v base folder ord, lit "md",
    consolidatedBody base (sortedMatches v base folder ord)⟩

/-- Outcome of the consolidator, mirroring the notices of main.ts
lines 124, 134, 156, 211 and 214. -/
inductive PreserveOutcome
  | noActiveFile
  | archiveMissing
  | noSnapshots
  | createFailed
  | ok (name : Str)
deriving DecidableEq, Repr

/-- Core of `preserveLegacyFiles` after the active-file and folder checks
(main.ts lines 138-211).  `vault.create` runs before any deletion, so on the
create-failure path (an entry already sits at the target path; caught at
line 212) the vault is returned unchanged.  On success the record is created
and then every file of `filesWithTimestamp` is deleted; deleting each
element in turn removes exactly the files equal to some matched snapshot,
which the single `filter` below expresses. -/
def consolidateStep (v : Vault) (base folder : Str) (ord : SortOrder) :
    PreserveOutcome × Vault :=
  if legacyMatches v base folder = [] then (.noSnapshots, v)
  else if fileExistsAt v folder (consolidateRecordName v base folder ord) (lit "md") then
    (.createFailed, v)
  else
    let targets := (sortedMatches v base folder ord).map (fun p => p.1)
    let newFiles := (v.files ++ [consolidateRecord v base folder ord]).filter
      (fun f => decide (f ∉ targets))
    (.ok (consolidateRecordName v base folder ord), { v with files := newFiles })

/-- Source `preserveLegacyFiles` (main.ts lines 121-216). -/
def preserveLegacyFiles (v : Vault) (active : Option ActiveDoc) (s : Settings) :
    PreserveOutcome × Vault :=
  match active with
  | none => (.noActiveFile, v)
  | some doc =>
    if normalizePath s.legacyFolder ∈ v.folders then
      consolidateStep v doc.basename (normalizePath s.legacyFolder) s.sortOrder
    else (.archiveMissing, v)

/-! ### Decimal rendering lemmas -/

/-- The fuel of `natDigitsAux` is irrelevant once it exceeds the input. -/
theorem natDigitsAux_congr (n : Nat) : ∀ (f f' : Nat), n < f → n < f' →
    natDigitsAux f n = natDigitsAux f' n := by
  induction n using Nat.strong_induction_on with
  | _ n ih =>
    intro f f' hf hf'
    obtain ⟨g, rfl⟩ : ∃ k, f = k + 1 := ⟨f - 1, by omega⟩
    obtain ⟨g', rfl⟩ : ∃ k, f' = k + 1 := ⟨f' - 1, by omega⟩
    simp only [natDigitsAux]
    by_cases h : n < 10
    · simp [h]
    · have hdiv : n / 10 < n := Nat.div_lt_self (by omega) (by omega)
      rw [if_neg h, if_neg h, ih (n / 10) hdiv g g' (by omega) (by omega)]

theorem natDigits_lt10 {n : Nat} (h : n < 10) : natDigits n = [Nat.digitChar n] := by
  simp [natDigits, natDigitsAux, h]

theorem natDigits_ge10 {n : Nat} (h : 10 ≤ n) :
    natDigits n = natDigits (n / 10) ++ [Nat.digitChar (n % 10)] := by
  have hdiv : n / 10 < n := Nat.div_lt_self (by omega) (by omega)
  simp only [natDigits, natDigitsAux, if_neg (by omega : ¬ n < 10)]
  congr 1
  exact natDigitsAux_congr (n / 10) n (n / 10 + 1) (by omega) (by omega)

theorem natDigits_length₁ {n : Nat} (h : n < 10) : (natDigits n).length = 1 := by
  simp [natDigits_lt10 h]

theorem natDigits_length₂ {n : Nat} (h1 : 10 ≤ n) (h2 : n < 100) :
    (natDigits n).length = 2 := by
  rw [natDigits_ge10 h1]
  simp [natDigits_length₁ (show n / 10 < 10 by omega)]

theorem natDigits_length₃ {n : Nat} (h1 : 100 ≤ n) (h2 : n < 1000) :
    (natDigits n).length = 3 := by
  rw [natDigits_ge10 (by omega)]
  simp [natDigits_length₂ (show 10 ≤ n / 10 by omega) (show n / 10 < 100 by omega)]

theorem natDigits_length₄ {n : Nat} (h1 : 1000 ≤ n) (h2 : n < 10000) :
    (natDigits n).length = 4 := by
  rw [natDigits_ge10 (by omega)]
  simp [natDigits_length₃ (show 100 ≤ n / 10 by omega) (show n / 10 < 1000 by omega)]

theorem digitChar_isDigit {n : Nat} (h : n < 10) : (Nat.digitChar n).isDigit = true := by
  interval_cases n <;> decide

theorem natDigitsAux_isDigit : ∀ (f n : Nat), n < f →
    ∀ c ∈ natDigitsAux f n, c.isDigit = true := by
  intro f
  induction f with
  | zero => omega
  | succ f ih =>
    intro n hn c hc
    simp only [natDigitsAux] at hc
    by_cases h : n < 10
    · rw [if_pos h] at hc
      simp only [List.mem_singleton] at hc
      exact hc ▸ digitChar_isDigit h
    · rw [if_neg h] at hc
      rcases List.mem_append.1 hc with h1 | h2
      · have hdiv : n / 10 < n := Nat.div_lt_self (by omega) (by omega)
        exact ih (n / 10) (by omega) c h1
      · simp only [List.mem_singleton] at h2
        exact h2 ▸ digitChar_isDigit (Nat.mod_lt n (by omega))

theorem natDigits_isDigit {n : Nat} {c : Char} (hc : c ∈ natDigits n) :
    c.isDigit = true :=
  natDigitsAux_isDigit (n + 1) n (Nat.lt_succ_self n) c hc

theorem pad2_length {n : Nat} (h : n < 100) : (pad2 n).length = 2 := by
  unfold pad2
  by_cases h1 : n < 10
  · simp [natDigits_length₁ h1]
  · simp [natDigits_length₂ (by omega) h]

theorem pad2_isDigit {n : Nat} {c : Char} (hc : c ∈ pad2 n) : c.isDigit = true := by
  unfold pad2 at hc
  rcases List.mem_append.1 hc with h | h
  · rw [List.eq_of_mem_replicate h]; decide
  · exact natDigits_isDigit h

/-- Call times whose fields are in the ranges the JS `Date` API reports for
real wall-clock instants (4-digit year). -/
def validDate (t : DateTime) : Prop :=
  1000 ≤ t.year ∧ t.year < 10000 ∧ t.month0 < 12 ∧ 1 ≤ t.day ∧ t.day ≤ 31 ∧
    t.hour < 24 ∧ t.minute < 60 ∧ t.second < 60

instance (t : DateTime) : Decidable (validDate t) := by
  unfold validDate; infer_instance

theorem getTimestamp_length {t : DateTime} (h : validDate t) :
    (getTimestamp t).length = 14 := by
  obtain ⟨h1, h2, h3, h4, h5, h6, h7, h8⟩ := h
  unfold getTimestamp
  rw [List.length_append, List.length_append, List.length_append,
    List.length_append, List.length_append, natDigits_length₄ h1 h2,
    pad2_length (by omega), pad2_length (by omega), pad2_length (by omega),
    pad2_length (by omega), pad2_length (by omega)]

theorem getTimestamp_isDigit {t : DateTime} {c : Char} (hc : c ∈ getTimestamp t) :
    c.isDigit = true := by
  unfold getTimestamp at hc
  simp only [List.mem_append] at hc
  rcases hc with ((((h | h) | h) | h) | h) | h
  · exact natDigits_isDigit h
  all_goals exact pad2_isDigit h

/-! ### Snapshot writer: claim C2 -/

theorem ensureFolder_files (v : Vault) (folder : Str) :
    (ensureFolder v folder).files = v.files := by
  unfold ensureFolder
  split <;> rfl

theorem createLegacyFile_ok {v : Vault} {doc : ActiveDoc} {s : Settings}
    {now : DateTime} {name : Str} {v' : Vault}
    (h : createLegacyFile v (some doc) s now = (.ok name, v')) :
    name = snapshotName doc.basename now ∧
    v'.files = v.files ++
      [⟨normalizePath s.legacyFolder, snapshotName doc.basename now, lit "md",
        doc.content⟩] := by
  simp only [createLegacyFile] at h
  split at h
  · simp at h
  · simp only [Prod.mk.injEq, WriteOutcome.ok.injEq] at h
    obtain ⟨h1, h2⟩ := h
    refine ⟨h1.symm, ?_⟩
    rw [← h2]
    simp [ensureFolder_files]

/-- C2: a successful run of the snapshot writer at a valid call time adds
exactly one new entry to the archive folder, named
`{base}_legacy_{timestamp}` with the 14-digit all-digit timestamp, and the
entry's content is the document's content at call time. -/
theorem c2_write_snapshot (v : Vault) (doc : ActiveDoc) (s : Settings)
    (now : DateTime) (name : Str) (v' : Vault)
    (hok : createLegacyFile v (some doc) s now = (.ok name, v'))
    (hd : validDate now) :
    v'.files = v.files ++
      [⟨normalizePath s.legacyFolder, doc.basename ++ lit "_legacy_" ++ getTimestamp now,
        lit "md", doc.content⟩] ∧
    name = doc.basename ++ lit "_legacy_" ++ getTimestamp now ∧
    (getTimestamp now).length = 14 ∧
    ∀ c ∈ getTimestamp now, c.isDigit = true := by
  obtain ⟨h1, h2⟩ := createLegacyFile_ok hok
  exact ⟨h2, h1, getTimestamp_length hd, fun c hc => getTimestamp_isDigit hc⟩

/-- Concrete instantiation data for the witnesses. -/
def exDoc : ActiveDoc := ⟨lit "note", lit "hello"⟩

def exNow : DateTime := ⟨2024, 2, 5, 7, 9, 11⟩

def exVaultEmpty : Vault := ⟨[], []⟩

/-- Witness for C2 at a concrete vault, document and time. -/
theorem c2_write_snapshot_witness :
    (createLegacyFile exVaultEmpty (some exDoc) DEFAULT_SETTINGS exNow).2.files =
      exVaultEmpty.files ++
        [⟨normalizePath DEFAULT_SETTINGS.legacyFolder,
          exDoc.basename ++ lit "_legacy_" ++ getTimestamp exNow, lit "md",
          exDoc.content⟩] ∧
    lit "note_legacy_20240305070911" =
      exDoc.basename ++ lit "_legacy_" ++ getTimestamp exNow ∧
    (getTimestamp exNow).length = 14 ∧
    ∀ c ∈ getTimestamp exNow, c.isDigit = true :=
  c2_write_snapshot exVaultEmpty exDoc DEFAULT_SETTINGS exNow
    (lit "note_legacy_20240305070911")
    (createLegacyFile exVaultEmpty (some exDoc) DEFAULT_SETTINGS exNow).2
    (by decide) (by decide)

/-! ### Pattern matching lemmas -/

theorem length_m8 : (lit "_legacy_").length = 8 := rfl

/-- Characterisation of the filter regex: a basename matches the owner's
pattern exactly when it is the owner's base name, then `_legacy_`, then 14
digits. -/
theorem matchesPattern_eq_true_iff {base name : Str} :
    matchesPattern base name = true ↔
      ∃ ts : Str, name = base ++ lit "_legacy_" ++ ts ∧ ts.length = 14 ∧
        ts.all Char.isDigit = true := by
  unfold matchesPattern
  constructor
  · intro h
    simp only [Bool.and_eq_true, beq_iff_eq] at h
    obtain ⟨⟨hp, hlen⟩, hdig⟩ := h
    obtain ⟨t, ht⟩ := List.isPrefixOf_iff_prefix.1 hp
    have hdrop : name.drop (base.length + 8) = t := by
      rw [← ht]
      exact List.drop_left' (by simp [List.length_append, length_m8])
    exact ⟨t, ht.symm, by rw [hdrop] at hlen; exact hlen,
      by rw [hdrop] at hdig; exact hdig⟩
  · rintro ⟨ts, rfl, hlen, hdig⟩
    have hdrop : (base ++ lit "_legacy_" ++ ts).drop (base.length + 8) = ts :=
      List.drop_left' (by simp [List.length_append, length_m8])
    have h1 : (base ++ lit "_legacy_").isPrefixOf (base ++ lit "_legacy_" ++ ts) = true :=
      List.isPrefixOf_iff_prefix.2 (List.prefix_append _ _)
    rw [hdrop, h1, hlen, hdig]
    simp

/-- A successfully extracted timestamp has 14 characters. -/
theorem extractTimestamp_some_length {name ts : Str}
    (h : extractTimestamp name = some ts) : ts.length = 14 := by
  unfold extractTimestamp at h
  split at h
  · rename_i hcond
    obtain ⟨h22, _, _⟩ := hcond
    have := Option.some.inj h
    rw [← this]
    simp only [List.length_drop]
    omega
  · exact absurd h (by simp)

/-- On every basename accepted by the filter, the extraction regex of
main.ts line 163 succeeds and returns the name's final 14 characters. -/
theorem extractTimestamp_eq_of_matched {base name : Str}
    (h : matchesPattern base name = true) :
    ∃ ts : Str, extractTimestamp name = some ts ∧
      ts = name.drop (name.length - 14) ∧ ts.length = 14 ∧
      name = base ++ lit "_legacy_" ++ ts := by
  obtain ⟨ts, rfl, hlen, hdig⟩ := matchesPattern_eq_true_iff.1 h
  have hlenname : (base ++ lit "_legacy_" ++ ts).length = base.length + 22 := by
    simp only [List.length_append, length_m8, hlen]
  have htail : (base ++ lit "_legacy_" ++ ts).drop
      ((base ++ lit "_legacy_" ++ ts).length - 22) = lit "_legacy_" ++ ts := by
    rw [hlenname, show base.length + 22 - 22 = base.length from by omega,
      List.append_assoc]
    exact List.drop_left' rfl
  have hdrop14 : (base ++ lit "_legacy_" ++ ts).drop
      ((base ++ lit "_legacy_" ++ ts).length - 14) = ts := by
    rw [hlenname, show base.length + 22 - 14 = base.length + 8 from by omega]
    exact List.drop_left' (by simp [List.length_append, length_m8])
  refine ⟨ts, ?_, hdrop14.symm, hlen, rfl⟩
  unfold extractTimestamp
  rw [if_pos]
  · rw [htail]
    rw [List.drop_left' length_m8]
  · refine ⟨by omega, ?_, ?_⟩
    · rw [htail]
      exact List.isPrefixOf_iff_prefix.2 (List.prefix_append _ _)
    · rw [htail, List.drop_left' length_m8]
      exact hdig

/-- Every sort key produced at main.ts lines 161-166 has 14 characters
(extracted timestamps and the fallback alike). -/
theorem withTimestamps_ts_length {files : List VFile} :
    ∀ p ∈ withTimestamps files, p.2.length = 14 := by
  intro p hp
  unfold withTimestamps at hp
  obtain ⟨f, _, rfl⟩ := List.mem_map.1 hp
  cases hext : extractTimestamp f.basename with
  | none => simp [hext, fallbackTimestamp, lit]
  | some ts => simpa [hext] using extractTimestamp_some_length hext

/-- C7: the snapshot-matching predicate accepts
`note_legacy_20240101000000` for owner `note`, rejects it for owners
`note2` and `notex`, and rejects the 13-digit name
`note_legacy_2024010100000` for every owner. -/
theorem c7_pattern_matching :
    matchesPattern (lit "note") (lit "note_legacy_20240101000000") = true ∧
    matchesPattern (lit "note2") (lit "note_legacy_20240101000000") = false ∧
    matchesPattern (lit "notex") (lit "note_legacy_20240101000000") = false ∧
    ∀ base : Str, matchesPattern base (lit "note_legacy_2024010100000") = false := by
  refine ⟨by decide, by decide, by decide, ?_⟩
  intro base
  cases h : matchesPattern base (lit "note_legacy_2024010100000") with
  | false => rfl
  | true =>
    exfalso
    obtain ⟨ts, heq, hlen, _⟩ := matchesPattern_eq_true_iff.1 h
    have hlens : base.length + 8 + ts.length = 25 := by
      have h25 := congrArg List.length heq
      simp only [List.length_append, length_m8] at h25
      have : (lit "note_legacy_2024010100000").length = 25 := by decide
      omega
    have hbase3 : base.length = 3 := by omega
    have hpre : base ++ lit "_legacy_" <+: lit "note_legacy_2024010100000" := by
      rw [heq]
      exact List.prefix_append _ _
    have htake : base ++ lit "_legacy_" = (lit "note_legacy_2024010100000").take 11 := by
      have h11 := List.prefix_iff_eq_take.1 hpre
      rw [List.length_append, length_m8, hbase3] at h11
      exact h11
    have hcontr : lit "_legacy_" = ((lit "note_legacy_2024010100000").take 11).drop 3 := by
      rw [← htake]
      exact (List.drop_left' hbase3).symm
    exact absurd hcontr (by decide)

/-- C9: for every file that passes the snapshot filter, the timestamp
extraction succeeds, so the `'00000000000000'` fallback of main.ts line 164
is unreachable: the sort key paired with the file is the actual 14-digit
suffix of its basename. -/
theorem c9_fallback_unreachable (v : Vault) (base folder : Str) (f : VFile) (ts : Str)
    (h : (f, ts) ∈ withTimestamps (legacyMatches v base folder)) :
    extractTimestamp f.basename = some ts ∧
    ts = f.basename.drop (f.basename.length - 14) := by
  unfold withTimestamps at h
  obtain ⟨g, hg, heq⟩ := List.mem_map.1 h
  have hgf : g = f := congrArg Prod.fst heq
  have hts : (extractTimestamp f.basename).getD fallbackTimestamp = ts := by
    rw [← hgf]
    exact congrArg Prod.snd heq
  have hgmem : f ∈ legacyMatches v base folder := hgf ▸ hg
  have hm : matchesPattern base f.basename = true := by
    unfold legacyMatches at hgmem
    have h2 := (List.mem_filter.1 hgmem).2
    simp only [Bool.and_eq_true] at h2
    exact h2.2
  obtain ⟨ts', hsome, hdrop, _, _⟩ := extractTimestamp_eq_of_matched hm
  rw [hsome, Option.getD_some] at hts
  subst hts
  exact ⟨hsome, hdrop⟩

/-! ### Body construction: claim C3 -/

/-- The chunks the loop appends for every entry after the first. -/
def sepChunks (base : Str) (l : List (VFile × Str)) : Str :=
  (l.map (fun p => sepBlock ++ entryBlock base p.2 p.1.content)).flatten

theorem bodyLoop_pos (base : Str) :
    ∀ (l : List (VFile × Str)) (i : Nat) (acc : Str), 0 < i →
      bodyLoop base i l acc = acc ++ sepChunks base l := by
  intro l
  induction l with
  | nil =>
    intro i acc _
    simp [bodyLoop, sepChunks]
  | cons p rest ih =>
    intro i acc hi
    obtain ⟨f, ts⟩ := p
    simp only [bodyLoop, if_pos hi]
    rw [ih (i + 1) _ (by omega)]
    simp [sepChunks, List.append_assoc]

theorem consolidatedBody_cons (base : Str) (p : VFile × Str)
    (rest : List (VFile × Str)) :
    consolidatedBody base (p :: rest) =
      entryBlock base p.2 p.1.content ++ sepChunks base rest := by
  obtain ⟨f, ts⟩ := p
  simp only [consolidatedBody, bodyLoop, if_neg (Nat.lt_irrefl 0)]
  rw [bodyLoop_pos base rest 1 _ (by omega)]
  simp

/-- C3: the consolidated body of a nonempty sorted list is the first
entry's header-plus-content block followed, for each subsequent entry, by
the separator block then that entry's header-plus-content block; the header
is the line `# {storageName}` followed by a blank line, and the separator
block is a blank line, the `___` horizontal-rule marker on its own line and
a blank line. -/
theorem c3_body_construction (base : Str) (first : VFile × Str)
    (rest : List (VFile × Str)) :
    consolidatedBody base (first :: rest) =
      entryBlock base first.2 first.1.content ++
        (rest.map (fun p => sepBlock ++ entryBlock base p.2 p.1.content)).flatten ∧
    (∀ ts c : Str, entryBlock base ts c =
      (lit "# " ++ (base ++ lit "_legacy_" ++ ts) ++ lit "\n") ++ lit "\n" ++ c) ∧
    sepBlock = lit "\n" ++ (lit "___" ++ lit "\n") ++ lit "\n" := by
  refine ⟨consolidatedBody_cons base first rest, ?_, by decide⟩
  intro ts c
  simp [entryBlock, lit, List.append_assoc]

/-! ### Consolidator branch analysis -/

theorem headD_mem {α : Type} {l : List α} (h : l ≠ []) (d : α) : l.headD d ∈ l := by
  cases l with
  | nil => exact absurd rfl h
  | cons a as => simp

theorem getLastD_mem {α : Type} {l : List α} (h : l ≠ []) (d : α) :
    l.getLastD d ∈ l := by
  rw [List.getLastD_eq_getLast?]
  cases hl : l.getLast? with
  | none => exact absurd (List.getLast?_eq_none_iff.1 hl) h
  | some a =>
    simp only [Option.getD_some]
    exact List.mem_of_mem_getLast? hl

/-- Every timestamp paired with a sorted match has 14 characters. -/
theorem sortedMatches_ts_length {v : Vault} {base folder : Str} {ord : SortOrder} :
    ∀ p ∈ sortedMatches v base folder ord, p.2.length = 14 := by
  intro p hp
  unfold sortedMatches sortFiles at hp
  exact withTimestamps_ts_length p ((List.perm_insertionSort _ _).mem_iff.1 hp)

/-- A file is deleted by the loop at main.ts lines 207-209 exactly when it
is one of the matched snapshots. -/
theorem mem_targets_iff {v : Vault} {base folder : Str} {ord : SortOrder} {f : VFile} :
    f ∈ (sortedMatches v base folder ord).map (fun p => p.1) ↔
      f ∈ legacyMatches v base folder := by
  unfold sortedMatches sortFiles
  constructor
  · intro hf
    obtain ⟨p, hp, hfeq⟩ := List.mem_map.1 hf
    have hp' := (List.perm_insertionSort _ _).mem_iff.1 hp
    unfold withTimestamps at hp'
    obtain ⟨g, hg, heq⟩ := List.mem_map.1 hp'
    have hgp : g = p.1 := congrArg Prod.fst heq
    rw [← hfeq, ← hgp]
    exact hg
  · intro hf
    refine List.mem_map.2
      ⟨(f, (extractTimestamp f.basename).getD fallbackTimestamp), ?_, rfl⟩
    refine (List.perm_insertionSort _ _).mem_iff.2 ?_
    unfold withTimestamps
    exact List.mem_map.2 ⟨f, hf, rfl⟩

theorem sortedMatches_ne_nil {v : Vault} {base folder : Str} {ord : SortOrder}
    (h : legacyMatches v base folder ≠ []) :
    sortedMatches v base folder ord ≠ [] := by
  intro hnil
  apply h
  have hperm := List.perm_insertionSort
    (fun a b => sortKeyLe ord a b = true) (withTimestamps (legacyMatches v base folder))
  unfold sortedMatches sortFiles at hnil
  rw [hnil] at hperm
  have hlen := hperm.length_eq
  unfold withTimestamps at hlen
  simp only [List.length_nil, List.length_map] at hlen
  exact List.length_eq_zero.1 hlen.symm

/-- The record name is built from two 14-character timestamps whenever at
least one snapshot matched. -/
theorem consolidateRecordName_ts {v : Vault} {base folder : Str} {ord : SortOrder}
    (h : legacyMatches v base folder ≠ []) :
    ∃ ts1 ts2 : Str, consolidateRecordName v base folder ord = recordName base ts1 ts2 ∧
      ts1.length = 14 ∧ ts2.length = 14 := by
  have hne := @sortedMatches_ne_nil v base folder ord h
  have hne' : timestampsOf (sortedMatches v base folder ord) ≠ [] := by
    unfold timestampsOf
    simpa using hne
  refine ⟨(timestampsOf (sortedMatches v base folder ord)).headD [],
    (timestampsOf (sortedMatches v base folder ord)).getLastD [], rfl, ?_, ?_⟩
  · have hmem := headD_mem hne' ([] : Str)
    unfold timestampsOf at hmem ⊢
    obtain ⟨p, hp, hpe⟩ := List.mem_map.1 hmem
    rw [← hpe]
    exact sortedMatches_ts_length p hp
  · have hmem := getLastD_mem hne' ([] : Str)
    unfold timestampsOf at hmem ⊢
    obtain ⟨p, hp, hpe⟩ := List.mem_map.1 hmem
    rw [← hpe]
    exact sortedMatches_ts_length p hp

/-- A consolidated record's name never matches the snapshot pattern of the
same owner: its tail after `{base}_legacy_` has 29 characters, not 14. -/
theorem matchesPattern_recordName {base ts1 ts2 : Str} (h1 : ts1.length = 14)
    (h2 : ts2.length = 14) :
    matchesPattern base (recordName base ts1 ts2) = false := by
  cases hm : matchesPattern base (recordName base ts1 ts2) with
  | false => rfl
  | true =>
    exfalso
    obtain ⟨ts, heq, hlen, _⟩ := matchesPattern_eq_true_iff.1 hm
    have := congrArg List.length heq
    simp only [recordName, List.length_append, length_m8] at this
    have h1' : (lit "-").length = 1 := rfl
    rw [h1', h1, h2, hlen] at this
    omega

theorem preserveLegacyFiles_some {v : Vault} {doc : ActiveDoc} {s : Settings} :
    preserveLegacyFiles v (some doc) s =
      if normalizePath s.legacyFolder ∈ v.folders then
        consolidateStep v doc.basename (normalizePath s.legacyFolder) s.sortOrder
      else (.archiveMissing, v) := rfl

/-- Everything the success branch of the consolidator guarantees. -/
theorem consolidateStep_ok_elim {v : Vault} {base folder : Str} {ord : SortOrder}
    {name : Str} {v' : Vault}
    (h : consolidateStep v base folder ord = (.ok name, v')) :
    legacyMatches v base folder ≠ [] ∧
    fileExistsAt v folder (consolidateRecordName v base folder ord) (lit "md") = false ∧
    name = consolidateRecordName v base folder ord ∧
    v'.files = (v.files ++ [consolidateRecord v base folder ord]).filter
      (fun f => decide (f ∉ (sortedMatches v base folder ord).map (fun p => p.1))) ∧
    v'.folders = v.folders := by
  unfold consolidateStep at h
  split at h
  · simp at h
  · rename_i h1
    split at h
    · simp at h
    · rename_i h2
      simp only [Prod.mk.injEq, PreserveOutcome.ok.injEq] at h
      obtain ⟨hname, hv⟩ := h
      subst hv
      exact ⟨h1, by simpa using h2, hname.symm, rfl, rfl⟩

/-- C6: if creation of the consolidated record fails, the vault (and hence
the set of snapshots) is returned unchanged — the deletions at main.ts
lines 207-209 run only after a successful create. -/
theorem c6_create_failure_atomic (v : Vault) (active : Option ActiveDoc)
    (s : Settings) (v' : Vault)
    (h : preserveLegacyFiles v active s = (.createFailed, v')) : v' = v := by
  cases active with
  | none => simp [preserveLegacyFiles] at h
  | some doc =>
    rw [preserveLegacyFiles_some] at h
    by_cases hf : normalizePath s.legacyFolder ∈ v.folders
    · rw [if_pos hf] at h
      unfold consolidateStep at h
      split at h
      · simp at h
      · split at h
        · simp only [Prod.mk.injEq] at h
          exact h.2.symm
        · simp at h
    · rw [if_neg hf] at h
      simp at h

/-- C8 core: with the archive folder present and zero matches, the
consolidator reports `noSnapshots` and returns the vault unchanged. -/
theorem c8_zero_matches (v : Vault) (doc : ActiveDoc) (s : Settings)
    (hfolder : normalizePath s.legacyFolder ∈ v.folders)
    (hnone : legacyMatches v doc.basename (normalizePath s.legacyFolder) = []) :
    preserveLegacyFiles v (some doc) s = (.noSnapshots, v) := by
  rw [preserveLegacyFiles_some, if_pos hfolder]
  unfold consolidateStep
  rw [if_pos hnone]

/-! ### Claim C1: deletion law -/

/-- C1: after a successful consolidate, none of the originally matched
snapshot entries remain among the vault's files, exactly one file with the
consolidated record's path exists afterwards, and none existed before. -/
theorem c1_deletion_law (v : Vault) (doc : ActiveDoc) (s : Settings) (name : Str)
    (v' : Vault)
    (h : preserveLegacyFiles v (some doc) s = (.ok name, v')) :
    (∀ f ∈ legacyMatches v doc.basename (normalizePath s.legacyFolder),
      f ∉ v'.files) ∧
    v'.files.countP (fun f => decide (f.folder = normalizePath s.legacyFolder ∧
      f.basename = name ∧ f.ext = lit "md")) = 1 ∧
    v.files.countP (fun f => decide (f.folder = normalizePath s.legacyFolder ∧
      f.basename = name ∧ f.ext = lit "md")) = 0 := by
  rw [preserveLegacyFiles_some] at h
  by_cases hfol : normalizePath s.legacyFolder ∈ v.folders
  case neg =>
    rw [if_neg hfol] at h
    simp at h
  rw [if_pos hfol] at h
  obtain ⟨hne, hex, hname, hfiles, _⟩ := consolidateStep_ok_elim h
  subst hname
  have hcount0 : v.files.countP
      (fun f => decide (f.folder = normalizePath s.legacyFolder ∧
        f.basename = consolidateRecordName v doc.basename (normalizePath s.legacyFolder)
          s.sortOrder ∧ f.ext = lit "md")) = 0 := by
    apply List.countP_eq_zero.2
    intro f hf
    unfold fileExistsAt at hex
    exact List.any_eq_false.1 hex f hf
  have hrec_notin : consolidateRecord v doc.basename (normalizePath s.legacyFolder)
      s.sortOrder ∉ (sortedMatches v doc.basename (normalizePath s.legacyFolder)
        s.sortOrder).map (fun p => p.1) := by
    intro hmem
    have hrecmatch := mem_targets_iff.1 hmem
    unfold legacyMatches at hrecmatch
    have hrecfiles := List.mem_of_mem_filter hrecmatch
    have h0 := List.countP_eq_zero.1 hcount0 _ hrecfiles
    apply h0
    simp only [decide_eq_true_eq]
    exact ⟨rfl, rfl, rfl⟩
  refine ⟨?_, ?_, hcount0⟩
  · intro f hf hfv'
    rw [hfiles] at hfv'
    have hq := (List.mem_filter.1 hfv').2
    simp only [decide_eq_true_eq] at hq
    exact hq (mem_targets_iff.2 hf)
  · rw [hfiles, List.countP_filter, List.countP_append]
    have hA : v.files.countP
        (fun a => decide (a.folder = normalizePath s.legacyFolder ∧
          a.basename = consolidateRecordName v doc.basename
            (normalizePath s.legacyFolder) s.sortOrder ∧ a.ext = lit "md") &&
          decide (a ∉ (sortedMatches v doc.basename (normalizePath s.legacyFolder)
            s.sortOrder).map (fun p => p.1))) = 0 := by
      apply List.countP_eq_zero.2
      intro f hf hpq
      simp only [Bool.and_eq_true] at hpq
      exact List.countP_eq_zero.1 hcount0 f hf hpq.1
    rw [hA]
    simp only [List.countP_cons, List.countP_nil, Bool.and_eq_true, decide_eq_true_eq]
    rw [if_pos ⟨⟨rfl, rfl, rfl⟩, hrec_notin⟩]

/-! ### Concrete data shared by the witnesses -/

def exDocDraft : ActiveDoc := ⟨lit "draft", lit "body"⟩

def exSnap9 : VFile :=
  ⟨lit "legacy", lit "draft_legacy_20240101090000", lit "md", lit "morning"⟩

def exSnap10 : VFile :=
  ⟨lit "legacy", lit "draft_legacy_20240101100000", lit "md", lit "midday"⟩

def exSnap11 : VFile :=
  ⟨lit "legacy", lit "draft_legacy_20240101110000", lit "md", lit "evening"⟩

def exVault3 : Vault := ⟨[lit "legacy"], [exSnap9, exSnap10, exSnap11]⟩

def exSettingsAsc : Settings := ⟨lit "legacy", .asc⟩

def exSettingsDesc : Settings := ⟨lit "legacy", .desc⟩

def exRecNameDesc : Str := lit "draft_legacy_20240101110000-20240101090000"

def exVaultClash : Vault :=
  ⟨[lit "legacy"],
    [exSnap9, ⟨lit "legacy", lit "draft_legacy_20240101090000-20240101090000",
      lit "md", lit "old"⟩]⟩

def exVaultNoMatch : Vault :=
  ⟨[lit "legacy"],
    [⟨lit "legacy", lit "other_legacy_20240101090000", lit "md", lit "x"⟩]⟩

/-- Witness for C1 on a concrete three-snapshot vault. -/
theorem c1_deletion_law_witness :
    (∀ f ∈ legacyMatches exVault3 exDocDraft.basename
        (normalizePath exSettingsDesc.legacyFolder),
      f ∉ (preserveLegacyFiles exVault3 (some exDocDraft) exSettingsDesc).2.files) ∧
    (preserveLegacyFiles exVault3 (some exDocDraft) exSettingsDesc).2.files.countP
      (fun f => decide (f.folder = normalizePath exSettingsDesc.legacyFolder ∧
        f.basename = exRecNameDesc ∧ f.ext = lit "md")) = 1 ∧
    exVault3.files.countP
      (fun f => decide (f.folder = normalizePath exSettingsDesc.legacyFolder ∧
        f.basename = exRecNameDesc ∧ f.ext = lit "md")) = 0 :=
  c1_deletion_law exVault3 exDocDraft exSettingsDesc exRecNameDesc
    (preserveLegacyFiles exVault3 (some exDocDraft) exSettingsDesc).2 (by decide)

/-- Witness for C6: the record's target name is already taken, so creation
fails and the vault comes back unchanged. -/
theorem c6_create_failure_atomic_witness :
    (preserveLegacyFiles exVaultClash (some exDocDraft) exSettingsAsc).2 = exVaultClash :=
  c6_create_failure_atomic exVaultClash (some exDocDraft) exSettingsAsc
    (preserveLegacyFiles exVaultClash (some exDocDraft) exSettingsAsc).2 (by decide)

/-- C8: with the archive folder present but zero matching snapshots, the
consolidator fails with `noSnapshots` and the vault is unchanged: nothing
is created and nothing is deleted. -/
theorem c8_no_snapshots (v : Vault) (doc : ActiveDoc) (s : Settings)
    (hfolder : normalizePath s.legacyFolder ∈ v.folders)
    (hnone : legacyMatches v doc.basename (normalizePath s.legacyFolder) = []) :
    preserveLegacyFiles v (some doc) s = (.noSnapshots, v) :=
  c8_zero_matches v doc s hfolder hnone

/-- Witness for C8 on a vault whose only archive entry belongs to another
owner. -/
theorem c8_no_snapshots_witness :
    preserveLegacyFiles exVaultNoMatch (some exDocDraft) exSettingsAsc =
      (.noSnapshots, exVaultNoMatch) :=
  c8_no_snapshots exVaultNoMatch exDocDraft exSettingsAsc (by decide) (by decide)

/-! ### Claim C10: consolidation never re-consumes its own output -/

/-- C10: a successful consolidate leaves the owner's record with a name the
snapshot pattern rejects, so a second consolidate for the same document
finds zero matches, fails with `noSnapshots`, and leaves the vault — in
particular the record — untouched. -/
theorem c10_no_reconsume (v : Vault) (doc : ActiveDoc) (s : Settings) (name : Str)
    (v' : Vault) (h : preserveLegacyFiles v (some doc) s = (.ok name, v')) :
    matchesPattern doc.basename name = false ∧
    preserveLegacyFiles v' (some doc) s = (.noSnapshots, v') := by
  rw [preserveLegacyFiles_some] at h
  by_cases hfol : normalizePath s.legacyFolder ∈ v.folders
  case neg =>
    rw [if_neg hfol] at h
    simp at h
  rw [if_pos hfol] at h
  obtain ⟨hne, hex, hname, hfiles, hfolders⟩ := consolidateStep_ok_elim h
  obtain ⟨ts1, ts2, hrn, hl1, hl2⟩ :=
    @consolidateRecordName_ts v doc.basename (normalizePath s.legacyFolder) s.sortOrder hne
  have hpat : matchesPattern doc.basename name = false := by
    rw [hname, hrn]
    exact matchesPattern_recordName hl1 hl2
  refine ⟨hpat, ?_⟩
  apply c8_zero_matches
  · rw [hfolders]
    exact hfol
  · unfold legacyMatches
    apply List.filter_eq_nil_iff.2
    intro f hf hP
    rw [hfiles] at hf
    obtain ⟨hfin, hq⟩ := List.mem_filter.1 hf
    simp only [decide_eq_true_eq] at hq
    simp only [Bool.and_eq_true, decide_eq_true_eq] at hP
    rcases List.mem_append.1 hfin with hfv | hfrec
    · apply hq
      apply mem_targets_iff.2
      unfold legacyMatches
      refine List.mem_filter.2 ⟨hfv, ?_⟩
      simp only [Bool.and_eq_true, decide_eq_true_eq]
      exact hP
    · have hfeq := List.mem_singleton.1 hfrec
      have hbn : f.basename = consolidateRecordName v doc.basename
          (normalizePath s.legacyFolder) s.sortOrder := by
        rw [hfeq]
        rfl
      rw [hbn, ← hname] at hP
      rw [hP.2] at hpat
      exact absurd hpat (by simp)

/-- Witness for C10: consolidating the concrete three-snapshot vault and
then consolidating again. -/
theorem c10_no_reconsume_witness :
    matchesPattern exDocDraft.basename exRecNameDesc = false ∧
    preserveLegacyFiles (preserveLegacyFiles exVault3 (some exDocDraft) exSettingsDesc).2
        (some exDocDraft) exSettingsDesc =
      (.noSnapshots, (preserveLegacyFiles exVault3 (some exDocDraft) exSettingsDesc).2) :=
  c10_no_reconsume exVault3 exDocDraft exSettingsDesc exRecNameDesc
    (preserveLegacyFiles exVault3 (some exDocDraft) exSettingsDesc).2 (by decide)

/-! ### Claim C4: record naming and the descending scenario -/

/-- The vault exVault3 becomes after a descending consolidate: the three
snapshots are gone, replaced by one record whose body lists the contents
from the 11:00 snapshot down to the 09:00 snapshot. -/
def exVault3After : Vault :=
  ⟨[lit "legacy"],
    [⟨lit "legacy", exRecNameDesc, lit "md",
      lit "# draft_legacy_20240101110000\n\nevening\n___\n\n# draft_legacy_20240101100000\n\nmidday\n___\n\n# draft_legacy_20240101090000\n\nmorning"⟩]⟩

/-- C4: on every successful consolidate the record is named
`{base}_legacy_{startTimestamp}-{endTimestamp}` with `startTimestamp` the
first and `endTimestamp` the last timestamp in sorted order; in the
concrete descending scenario over `draft` the record is
`draft_legacy_20240101110000-20240101090000` and the body runs 11:00, then
10:00, then 09:00. -/
theorem c4_record_naming :
    (∀ (v : Vault) (doc : ActiveDoc) (s : Settings) (name : Str) (v' : Vault),
      preserveLegacyFiles v (some doc) s = (.ok name, v') →
      name = recordName doc.basename
        ((timestampsOf (sortedMatches v doc.basename (normalizePath s.legacyFolder)
          s.sortOrder)).headD [])
        ((timestampsOf (sortedMatches v doc.basename (normalizePath s.legacyFolder)
          s.sortOrder)).getLastD [])) ∧
    preserveLegacyFiles exVault3 (some exDocDraft) exSettingsDesc =
      (.ok exRecNameDesc, exVault3After) := by
  constructor
  · intro v doc s name v' h
    rw [preserveLegacyFiles_some] at h
    by_cases hfol : normalizePath s.legacyFolder ∈ v.folders
    case neg =>
      rw [if_neg hfol] at h
      simp at h
    rw [if_pos hfol] at h
    obtain ⟨_, _, hname, _, _⟩ := consolidateStep_ok_elim h
    exact hname
  · decide

/-- Witness for C4's general conjunct at the concrete scenario. -/
theorem c4_record_naming_witness :
    exRecNameDesc = recordName exDocDraft.basename
      ((timestampsOf (sortedMatches exVault3 exDocDraft.basename
        (normalizePath exSettingsDesc.legacyFolder) exSettingsDesc.sortOrder)).headD [])
      ((timestampsOf (sortedMatches exVault3 exDocDraft.basename
        (normalizePath exSettingsDesc.legacyFolder) exSettingsDesc.sortOrder)).getLastD []) :=
  c4_record_naming.1 exVault3 exDocDraft exSettingsDesc exRecNameDesc
    (preserveLegacyFiles exVault3 (some exDocDraft) exSettingsDesc).2 (by decide)

/-- Witness for C9 at a concrete matched snapshot. -/
theorem c9_fallback_unreachable_witness :
    extractTimestamp exSnap9.basename = some (lit "20240101090000") ∧
    lit "20240101090000" = exSnap9.basename.drop (exSnap9.basename.length - 14) :=
  c9_fallback_unreachable exVault3 (lit "draft") (lit "legacy") exSnap9
    (lit "20240101090000") (by decide)

/-! ### Claim C5: round-trip splitting on the separator block -/

/-- The five-character marker `"\n___\n"`: the separator block without its
final newline.  Any occurrence of the separator contains it, and it governs
when greedy splitting can misfire across a block boundary. -/
def hrMarker : Str := lit "\n___\n"

/-- The header-plus-content block a single sorted entry contributes. -/
def blockOf (base : Str) (p : VFile × Str) : Str :=
  entryBlock base p.2 p.1.content

/-- Greedy left-to-right split on the separator block, with explicit fuel so
the recursion is structural; fuel `input.length + 1` always suffices. -/
def splitSepFuel : Nat → Str → Str → List Str
  | 0, acc, _ => [acc.reverse]
  | _ + 1, acc, [] => [acc.reverse]
  | fuel + 1, acc, c :: cs =>
    if sepBlock <+: (c :: cs) then
      acc.reverse :: splitSepFuel fuel [] ((c :: cs).drop sepBlock.length)
    else splitSepFuel fuel (c :: acc) cs

/-- Split a string into the segments between occurrences of the separator
block. -/
def splitOnSep (l : Str) : List Str := splitSepFuel (l.length + 1) [] l

theorem sepBlock_eq : sepBlock = ['\n', '_', '_', '_', '\n', '\n'] := rfl

theorem sep_length : sepBlock.length = 6 := rfl

theorem hrMarker_pre_sep : hrMarker <+: sepBlock := by decide

/-- The fuel of `splitSepFuel` is irrelevant once it exceeds the input. -/
theorem splitSepFuel_congr : ∀ (n : Nat) (l : Str), l.length ≤ n →
    ∀ (f f' : Nat) (acc : Str), l.length < f → l.length < f' →
      splitSepFuel f acc l = splitSepFuel f' acc l := by
  intro n
  induction n with
  | zero =>
    intro l hl f f' acc hf hf'
    rw [List.length_eq_zero.1 (Nat.le_zero.1 hl)]
    obtain ⟨g, rfl⟩ : ∃ k, f = k + 1 := ⟨f - 1, by omega⟩
    obtain ⟨g', rfl⟩ : ∃ k, f' = k + 1 := ⟨f' - 1, by omega⟩
    rfl
  | succ n ih =>
    intro l hl f f' acc hf hf'
    obtain ⟨g, rfl⟩ : ∃ k, f = k + 1 := ⟨f - 1, by omega⟩
    obtain ⟨g', rfl⟩ : ∃ k, f' = k + 1 := ⟨f' - 1, by omega⟩
    cases l with
    | nil => rfl
    | cons c cs =>
      simp only [List.length_cons] at hl hf hf'
      simp only [splitSepFuel]
      by_cases hp : sepBlock <+: (c :: cs)
      · rw [if_pos hp, if_pos hp]
        congr 1
        have hd : ((c :: cs).drop sepBlock.length).length = cs.length + 1 - 6 := by
          simp [List.length_drop, sep_length]
        apply ih
        · rw [hd]; omega
        · rw [hd]; omega
        · rw [hd]; omega
      · rw [if_neg hp, if_neg hp]
        apply ih
        · omega
        · omega
        · omega

/-- The separator block cannot start strictly inside a marker-free block
that is followed by the separator: any such overlap would force the block to
contain or end with the marker. -/
theorem sep_not_prefix (b t : Str) (hb : b ≠ []) (hm : ¬ hrMarker <:+: b) :
    ¬ sepBlock <+: b ++ (sepBlock ++ t) := by
  intro h
  by_cases hlen : 6 ≤ b.length
  · have hsp : sepBlock <+: b :=
      List.prefix_of_prefix_length_le h (List.prefix_append _ _)
        (by rw [sep_length]; omega)
    exact hm (List.IsPrefix.isInfix (List.IsPrefix.trans hrMarker_pre_sep hsp))
  · obtain ⟨u, hu⟩ := h
    cases b with
    | nil => exact hb rfl
    | cons a1 r1 =>
      cases r1 with
      | nil => simp [sepBlock_eq] at hu
      | cons a2 r2 =>
        cases r2 with
        | nil => simp [sepBlock_eq] at hu
        | cons a3 r3 =>
          cases r3 with
          | nil => simp [sepBlock_eq] at hu
          | cons a4 r4 =>
            cases r4 with
            | nil => simp [sepBlock_eq] at hu
            | cons a5 r5 =>
              cases r5 with
              | nil =>
                simp only [sepBlock_eq, List.cons_append, List.nil_append,
                  List.cons.injEq] at hu
                obtain ⟨h1, h2, h3, h4, h5, _⟩ := hu
                subst h1
                subst h2
                subst h3
                subst h4
                subst h5
                exact hm List.infix_rfl
              | cons a6 r6 =>
                simp only [List.length_cons] at hlen
                omega

/-- Greedy splitting of `block ++ separator ++ rest` for a marker-free
block: the first cut happens exactly at the block boundary. -/
theorem splitSepFuel_boundary : ∀ (b : Str), ¬ hrMarker <:+: b →
    ∀ (t acc : Str) (f : Nat), (b ++ (sepBlock ++ t)).length < f →
      splitSepFuel f acc (b ++ (sepBlock ++ t)) =
        (acc.reverse ++ b) :: splitOnSep t := by
  intro b
  induction b with
  | nil =>
    intro _ t acc f hf
    obtain ⟨g, rfl⟩ : ∃ k, f = k + 1 := ⟨f - 1, by omega⟩
    simp only [List.nil_append] at hf ⊢
    have hshape : sepBlock ++ t = '\n' :: ('_' :: '_' :: '_' :: '\n' :: '\n' :: t) := by
      simp [sepBlock_eq]
    rw [hshape]
    simp only [splitSepFuel]
    have hpre : sepBlock <+: '\n' :: ('_' :: '_' :: '_' :: '\n' :: '\n' :: t) := by
      rw [← hshape]
      exact List.prefix_append _ _
    rw [if_pos hpre]
    have hdrop : ('\n' :: ('_' :: '_' :: '_' :: '\n' :: '\n' :: t)).drop
        sepBlock.length = t := by
      rw [sep_length]
      rfl
    rw [hdrop]
    congr 1
    · simp
    · unfold splitOnSep
      apply splitSepFuel_congr t.length t le_rfl
      · simp only [List.length_append, sep_length] at hf
        omega
      · omega
  | cons c b' ih =>
    intro hm t acc f hf
    obtain ⟨g, rfl⟩ : ∃ k, f = k + 1 := ⟨f - 1, by omega⟩
    have hshape : (c :: b') ++ (sepBlock ++ t) = c :: (b' ++ (sepBlock ++ t)) := by
      simp
    rw [hshape]
    simp only [splitSepFuel]
    have hnp : ¬ sepBlock <+: c :: (b' ++ (sepBlock ++ t)) := by
      rw [← hshape]
      exact sep_not_prefix (c :: b') t (List.cons_ne_nil c b') hm
    rw [if_neg hnp]
    rw [ih (fun hmb' => hm (List.infix_cons hmb')) t (c :: acc) g
      (by simp only [List.length_cons, List.length_append] at hf ⊢; omega)]
    congr 1
    simp [List.append_assoc]

/-- Greedy splitting never cuts inside a marker-free string. -/
theorem splitSepFuel_no_sep : ∀ (b : Str), ¬ hrMarker <:+: b →
    ∀ (acc : Str) (f : Nat), b.length < f → splitSepFuel f acc b = [acc.reverse ++ b] := by
  intro b
  induction b with
  | nil =>
    intro _ acc f hf
    obtain ⟨g, rfl⟩ : ∃ k, f = k + 1 := ⟨f - 1, by omega⟩
    simp [splitSepFuel]
  | cons c b' ih =>
    intro hm acc f hf
    obtain ⟨g, rfl⟩ : ∃ k, f = k + 1 := ⟨f - 1, by omega⟩
    simp only [splitSepFuel]
    have hnp : ¬ sepBlock <+: (c :: b') := by
      intro hp
      exact hm (List.IsPrefix.isInfix (List.IsPrefix.trans hrMarker_pre_sep hp))
    rw [if_neg hnp]
    rw [ih (fun hmb' => hm (List.infix_cons hmb')) (c :: acc) g
      (by simp only [List.length_cons] at hf ⊢; omega)]
    simp [List.append_assoc]

theorem intercalate_cons₂ (sep b : Str) (bs : List Str) (h : bs ≠ []) :
    List.intercalate sep (b :: bs) = b ++ (sep ++ List.intercalate sep bs) := by
  cases bs with
  | nil => exact absurd rfl h
  | cons b2 bs' =>
    unfold List.intercalate
    rw [List.intersperse_cons_cons]
    simp [List.flatten_cons, List.append_assoc]

/-- Splitting an intercalation of marker-free blocks recovers the blocks. -/
theorem splitOnSep_intercalate : ∀ (blocks : List Str), blocks ≠ [] →
    (∀ bl ∈ blocks, ¬ hrMarker <:+: bl) →
    splitOnSep (List.intercalate sepBlock blocks) = blocks := by
  intro blocks
  induction blocks with
  | nil => exact fun h _ => absurd rfl h
  | cons b bs ih =>
    intro _ hall
    cases bs with
    | nil =>
      have hone : List.intercalate sepBlock [b] = b := by
        simp [List.intercalate]
      rw [hone]
      unfold splitOnSep
      rw [splitSepFuel_no_sep b (hall b (by simp)) [] (b.length + 1) (by omega)]
      simp
    | cons b2 bs' =>
      rw [intercalate_cons₂ _ _ _ (by simp)]
      unfold splitOnSep
      rw [splitSepFuel_boundary b (hall b (by simp)) _ []
        (((b ++ (sepBlock ++ List.intercalate sepBlock (b2 :: bs')))).length + 1)
        (by omega)]
      rw [ih (by simp) (fun bl hbl => hall bl (List.mem_cons_of_mem _ hbl))]
      simp

/-- The body of a nonempty sorted list is the intercalation of its
header-plus-content blocks with the separator block. -/
theorem intercalate_blocks (base : Str) :
    ∀ (l : List (VFile × Str)) (b : Str),
      List.intercalate sepBlock (b :: l.map (blockOf base)) = b ++ sepChunks base l := by
  intro l
  induction l with
  | nil =>
    intro b
    simp [List.intercalate, sepChunks]
  | cons q l' ih =>
    intro b
    rw [List.map_cons, intercalate_cons₂ _ _ _ (by simp), ih (blockOf base q)]
    simp [sepChunks, blockOf, List.append_assoc]

theorem body_eq_intercalate (base : Str) (p : VFile × Str)
    (rest : List (VFile × Str)) :
    consolidatedBody base (p :: rest) =
      List.intercalate sepBlock ((p :: rest).map (blockOf base)) := by
  rw [List.map_cons, intercalate_blocks, consolidatedBody_cons]
  rfl

/-- C5 (amended): for N ≥ 1 sorted snapshots whose header-plus-content
blocks are free of the `"\n___\n"` marker, the consolidated body splits on
the separator block back into exactly the N blocks, in sorted order, each
being the entry's header followed by its content verbatim. -/
theorem c5_round_trip (base : Str) (l : List (VFile × Str)) (hne : l ≠ [])
    (hclean : ∀ p ∈ l, ¬ hrMarker <:+: blockOf base p) :
    splitOnSep (consolidatedBody base l) = l.map (blockOf base) ∧
    (splitOnSep (consolidatedBody base l)).length = l.length := by
  cases l with
  | nil => exact absurd rfl hne
  | cons p rest =>
    have hsplit : splitOnSep (consolidatedBody base (p :: rest)) =
        (p :: rest).map (blockOf base) := by
      rw [body_eq_intercalate]
      apply splitOnSep_intercalate
      · simp
      · intro bl hbl
        obtain ⟨q, hq, hqe⟩ := List.mem_map.1 hbl
        rw [← hqe]
        exact hclean q hq
    refine ⟨hsplit, ?_⟩
    rw [hsplit]
    simp

/-- A snapshot whose content embeds the separator block. -/
def exBadFile : VFile :=
  ⟨lit "legacy", lit "a_legacy_20240101000000", lit "md", lit "x\n___\n\ny"⟩

/-- Counterexample to C5 as stated: one snapshot (N = 1) whose content
contains the separator block makes re-splitting return 2 segments, not 1. -/
theorem c5_round_trip_counterexample :
    (splitOnSep (consolidatedBody (lit "a")
      [(exBadFile, lit "20240101000000")])).length ≠ 1 := by
  decide

/-- Witness for the amended C5 at a concrete one-snapshot list. -/
theorem c5_round_trip_witness :
    splitOnSep (consolidatedBody (lit "draft") [(exSnap9, lit "20240101090000")]) =
      [(exSnap9, lit "20240101090000")].map (blockOf (lit "draft")) ∧
    (splitOnSep (consolidatedBody (lit "draft")
      [(exSnap9, lit "20240101090000")])).length = 1 :=
  c5_round_trip (lit "draft") [(exSnap9, lit "20240101090000")]
    (by decide) (by decide)

end LegacyPlugin
